import Mathlib

/-!
Verification of the patch normalization and application pipeline of
scripts/apply_patches.py.  Text is embedded as `List Char`; the two Python
string replacements, `str.splitlines`, the header/body classification loop
of `fix_patch_content`, and the joining step are each translated directly.
The batch orchestrator `apply_patches` is embedded as a function over an
abstract environment that records, per patch artifact, the outcome of each
fallible operation (read/decode, scratch write, primary apply, fallback
apply); the observable actions of a run are collected as an event trace.
-/

/-- Python `content.replace('\r\n', '\n')`: a left-to-right, non-overlapping
replacement of each CR LF pair by one LF. -/
def replaceCRLF : List Char → List Char
  | [] => []
  | [c] => [c]
  | c1 :: c2 :: rest =>
    if c1 = '\r' ∧ c2 = '\n' then '\n' :: replaceCRLF rest
    else c1 :: replaceCRLF (c2 :: rest)

/-- Python `content.replace('\r', '\n')`: each remaining CR becomes LF. -/
def replaceCR (s : List Char) : List Char :=
  s.map (fun c => if c = '\r' then '\n' else c)

/-- The Line-Ending Normalizer: the composed replacements performed first by
`fix_patch_content` (CRLF to LF, then lone CR to LF). -/
def normalizeEndings (s : List Char) : List Char :=
  replaceCR (replaceCRLF s)

/-- The characters Python `str.splitlines` treats as line boundaries
(CR LF is handled as a pair before these single boundaries). -/
def isLineBreak (c : Char) : Bool :=
  c == '\n' || c == '\r' || c == Char.ofNat 0x0B || c == Char.ofNat 0x0C ||
  c == Char.ofNat 0x1C || c == Char.ofNat 0x1D || c == Char.ofNat 0x1E ||
  c == Char.ofNat 0x85 || c == Char.ofNat 0x2028 || c == Char.ofNat 0x2029

/-- Worker for `splitlines`: `acc` holds the current line reversed.  A final
line with no terminator is kept; a trailing terminator adds no empty line. -/
def splitlinesGo : List Char → List Char → List (List Char)
  | [], acc => if acc.isEmpty then [] else [acc.reverse]
  | [c], acc =>
    if isLineBreak c then [acc.reverse] else [(c :: acc).reverse]
  | c1 :: c2 :: rest, acc =>
    if c1 = '\r' ∧ c2 = '\n' then acc.reverse :: splitlinesGo rest []
    else if isLineBreak c1 then acc.reverse :: splitlinesGo (c2 :: rest) []
    else splitlinesGo (c2 :: rest) (c1 :: acc)

/-- Python `content.splitlines()`. -/
def splitlines (s : List Char) : List (List Char) :=
  splitlinesGo s []

/-- Python `line.startswith(p)` on character lists. -/
def startsWith : List Char → List Char → Bool
  | [], _ => true
  | _ :: _, [] => false
  | p :: ps, c :: cs => if p = c then startsWith ps cs else false

/-- The source-file marker `---`. -/
def dashMarker : List Char := ['-', '-', '-']

/-- The destination-file marker `+++`. -/
def plusMarker : List Char := ['+', '+', '+']

/-- The hunk-boundary marker `@@`. -/
def atMarker : List Char := ['@', '@']

/-- The header test of the loop: `line.startswith('---') or
line.startswith('+++')`. -/
def isHeaderMarker (l : List Char) : Bool :=
  startsWith dashMarker l || startsWith plusMarker l

/-- The classification loop of `fix_patch_content`: the Bool argument is the
`in_header` flag; the result is `(header_lines, diff_lines)`.  While in
header mode a `---`/`+++` line is kept as header, an `@@` line flips the
flag and starts the body, and any other line is dropped; once out of header
mode every line goes to the body. -/
def splitHB : Bool → List (List Char) → List (List Char) × List (List Char)
  | _, [] => ([], [])
  | true, line :: rest =>
    if isHeaderMarker line then
      let p := splitHB true rest
      (line :: p.1, p.2)
    else if startsWith atMarker line then
      let p := splitHB false rest
      (p.1, line :: p.2)
    else splitHB true rest
  | false, line :: rest =>
    let p := splitHB false rest
    (p.1, line :: p.2)

/-- Python `'\n'.join(lines)`. -/
def joinLF : List (List Char) → List Char
  | [] => []
  | [l] => l
  | l :: l2 :: rest => l ++ '\n' :: joinLF (l2 :: rest)

/-- The whole of `fix_patch_content`: normalize line endings, split into
lines, classify with the `in_header` flag, then
`'\n'.join(header_lines + diff_lines) + '\n'`. -/
def fix_patch_content (content : List Char) : List Char :=
  let c := normalizeEndings content
  let lines := splitlines c
  let p := splitHB true lines
  joinLF (p.1 ++ p.2) ++ ['\n']

/-- Modelled from the spec words of section 4.1 for comparison with the
source normalizer: a single scan that rewrites every CR LF pair and every
lone CR to a single LF and alters no other character. -/
def normSpecRewrite : List Char → List Char
  | [] => []
  | [c] => [if c = '\r' then '\n' else c]
  | c1 :: c2 :: rest =>
    if c1 = '\r' then
      if c2 = '\n' then '\n' :: normSpecRewrite rest
      else '\n' :: normSpecRewrite (c2 :: rest)
    else c1 :: normSpecRewrite (c2 :: rest)

theorem startsWith_cons_ne (p c : Char) (ps cs : List Char) (h : p ≠ c) :
    startsWith (p :: ps) (c :: cs) = false := by
  simp [startsWith, h]

theorem atMarker_head (l : List Char) (h : startsWith atMarker l = true) :
    ∃ t, l = '@' :: t := by
  match l with
  | [] => simp [startsWith, atMarker] at h
  | c :: t =>
    refine ⟨t, ?_⟩
    simp [startsWith, atMarker] at h
    by_cases hc : '@' = c
    · rw [hc]
    · simp [hc] at h

theorem atMarker_not_header (l : List Char) (h : startsWith atMarker l = true) :
    isHeaderMarker l = false := by
  obtain ⟨t, rfl⟩ := atMarker_head l h
  simp [isHeaderMarker, dashMarker, plusMarker,
    startsWith_cons_ne '-' '@' _ _ (by decide),
    startsWith_cons_ne '+' '@' _ _ (by decide)]

theorem splitHB_false (ls : List (List Char)) : splitHB false ls = ([], ls) := by
  induction ls with
  | nil => rfl
  | cons l t ih => simp [splitHB, ih]

theorem splitHB_true_append (hb : List Char) (post : List (List Char))
    (hhb : startsWith atMarker hb = true) :
    ∀ pre : List (List Char), (∀ l ∈ pre, startsWith atMarker l = false) →
      splitHB true (pre ++ hb :: post) = (pre.filter isHeaderMarker, hb :: post) := by
  intro pre
  induction pre with
  | nil =>
    intro _
    simp [splitHB, atMarker_not_header hb hhb, hhb, splitHB_false]
  | cons l t ih =>
    intro hpre
    have hl : startsWith atMarker l = false := hpre l (by simp)
    have ht : ∀ x ∈ t, startsWith atMarker x = false :=
      fun x hx => hpre x (by simp [hx])
    by_cases hm : isHeaderMarker l = true
    · simp [splitHB, hm, ih ht, List.filter_cons]
    · simp at hm
      simp [splitHB, hm, hl, ih ht, List.filter_cons]

theorem splitHB_true_noAt :
    ∀ pre : List (List Char), (∀ l ∈ pre, startsWith atMarker l = false) →
      splitHB true pre = (pre.filter isHeaderMarker, []) := by
  intro pre
  induction pre with
  | nil => intro _; rfl
  | cons l t ih =>
    intro hpre
    have hl : startsWith atMarker l = false := hpre l (by simp)
    have ht : ∀ x ∈ t, startsWith atMarker x = false :=
      fun x hx => hpre x (by simp [hx])
    by_cases hm : isHeaderMarker l = true
    · simp [splitHB, hm, ih ht, List.filter_cons]
    · simp at hm
      simp [splitHB, hm, hl, ih ht, List.filter_cons]

/-- Claim C1: on LF-normalized line sequences the splitter of
`fix_patch_content`, started with the `in_header` flag true, keeps from the
lines before the first `@@` line exactly those beginning with `---` or `+++`
as the header sequence, drops the others, and from the first `@@` line on
appends every line verbatim to the body, never reclassifying later `---`,
`+++` or `@@` lines; when no `@@` line occurs at all, the body is empty. -/
theorem c1_header_body_split (pre post : List (List Char)) (hb : List Char)
    (hpre : ∀ l ∈ pre, startsWith atMarker l = false)
    (hhb : startsWith atMarker hb = true) :
    splitHB true (pre ++ hb :: post) = (pre.filter isHeaderMarker, hb :: post) ∧
    splitHB true pre = (pre.filter isHeaderMarker, []) :=
  ⟨splitHB_true_append hb post hhb pre hpre, splitHB_true_noAt pre hpre⟩

theorem c1_header_body_split_witness :
    splitHB true ([['-', '-', '-', 'a'], ['x']] ++ ['@', '@'] :: [['+', '+', '+', 'b']]) =
      ([['-', '-', '-', 'a'], ['x']].filter isHeaderMarker,
        ['@', '@'] :: [['+', '+', '+', 'b']]) ∧
    splitHB true [['-', '-', '-', 'a'], ['x']] =
      ([['-', '-', '-', 'a'], ['x']].filter isHeaderMarker, []) :=
  c1_header_body_split [['-', '-', '-', 'a'], ['x']] [['+', '+', '+', 'b']]
    ['@', '@'] (by decide) (by decide)

/-- Claim C8: the Line-Ending Normalizer agrees everywhere with the single
scan described by the spec (every CR LF pair and every lone CR becomes one
LF, nothing else changes), and maps the empty input to the empty output. -/
theorem c8_normalizer_rewrites :
    (∀ s : List Char, normalizeEndings s = normSpecRewrite s) ∧
    normalizeEndings [] = [] := by
  constructor
  · intro s
    unfold normalizeEndings
    induction s using replaceCRLF.induct with
    | case1 => rfl
    | case2 c =>
      by_cases hc : c = '\r' <;> simp [replaceCRLF, replaceCR, normSpecRewrite, hc]
    | case3 c1 c2 rest h ih =>
      obtain ⟨h1, h2⟩ := h
      subst h1; subst h2
      simp [replaceCRLF, replaceCR, normSpecRewrite] at ih ⊢
      exact ih
    | case4 c1 c2 rest h ih =>
      by_cases h1 : c1 = '\r'
      · have h2 : ¬c2 = '\n' := fun hc => h ⟨h1, hc⟩
        subst h1
        simp [replaceCRLF, replaceCR, normSpecRewrite, h, h2] at ih ⊢
        exact ih
      · simp [replaceCRLF, replaceCR, normSpecRewrite, h, h1] at ih ⊢
        exact ih
  · rfl

theorem replaceCRLF_no_cr : ∀ s : List Char, '\r' ∉ s → replaceCRLF s = s := by
  intro s
  induction s using replaceCRLF.induct with
  | case1 => intro _; rfl
  | case2 c => intro _; rfl
  | case3 c1 c2 rest h ih =>
    intro hs
    exact absurd (by simp [h.1]) hs
  | case4 c1 c2 rest h ih =>
    intro hs
    have : '\r' ∉ c2 :: rest := fun hm => hs (List.mem_cons_of_mem c1 hm)
    simp [replaceCRLF, h, ih this]

theorem replaceCR_no_cr : ∀ s : List Char, '\r' ∉ s → replaceCR s = s := by
  intro s
  induction s with
  | nil => intro _; rfl
  | cons c t ih =>
    intro h
    have hc : ¬c = '\r' := fun hh => h (by simp [hh])
    have ht : '\r' ∉ t := fun hm => h (List.mem_cons_of_mem c hm)
    have h2 := ih ht
    simp [replaceCR] at h2
    simp [replaceCR, hc, h2]

/-- Claim C9: normalization is a no-op on text containing no CR character. -/
theorem c9_normalize_noop (s : List Char) (h : '\r' ∉ s) :
    normalizeEndings s = s := by
  unfold normalizeEndings
  rw [replaceCRLF_no_cr s h, replaceCR_no_cr s h]

theorem c9_normalize_noop_witness :
    '\r' ∉ ['a', '\n', 'b'] ∧ normalizeEndings ['a', '\n', 'b'] = ['a', '\n', 'b'] :=
  ⟨by decide, c9_normalize_noop ['a', '\n', 'b'] (by decide)⟩

/-- A patch text whose body ends with an empty line. -/
def c5input : List Char := ['@', '@', '\n', '\n']

/-- Claim C5 fails as stated: on the input consisting of an `@@` line
followed by an empty line, the output of `fix_patch_content` ends with two
consecutive LF characters, so the canonical output does not always end with
exactly one trailing terminator. -/
theorem c5_counterexample :
    (fix_patch_content c5input).getLast? = some '\n' ∧
    (fix_patch_content c5input).dropLast.getLast? = some '\n' := by
  decide

/-- Claim C5 amended: for every input the canonical output is non-empty and
ends with an LF (exactly one LF is appended after the rejoined lines), but
the output may end in several consecutive LFs when the last body line is
empty. -/
theorem c5_amended_trailing_lf (s : List Char) :
    fix_patch_content s ≠ [] ∧ (fix_patch_content s).getLast? = some '\n' := by
  constructor
  · simp [fix_patch_content]
  · simp [fix_patch_content, List.getLast?_concat]

/-- Claim C6: when the lines of the normalized input split as lines without
a hunk boundary, then an `@@` line, then a tail free of `---`/`+++` lines,
`fix_patch_content` returns exactly the header-marker lines in their
original order followed by the lines from the first `@@` line onward in
their original order, rejoined with single LF separators and one appended
trailing LF. -/
theorem c6_roundtrip (s : List Char) (pre post : List (List Char)) (hb : List Char)
    (hsplit : splitlines (normalizeEndings s) = pre ++ hb :: post)
    (hpre : ∀ l ∈ pre, startsWith atMarker l = false)
    (hhb : startsWith atMarker hb = true)
    (hpost : ∀ l ∈ post, isHeaderMarker l = false) :
    fix_patch_content s =
      joinLF ((pre ++ hb :: post).filter isHeaderMarker ++ hb :: post) ++ ['\n'] := by
  have hnil : post.filter isHeaderMarker = [] := by
    rw [List.filter_eq_nil_iff]
    intro a ha
    simp [hpost a ha]
  have hfilter : (pre ++ hb :: post).filter isHeaderMarker = pre.filter isHeaderMarker := by
    rw [List.filter_append, List.filter_cons]
    simp [atMarker_not_header hb hhb, hnil]
  simp only [fix_patch_content, hsplit,
    splitHB_true_append hb post hhb pre hpre, hfilter]

theorem c6_roundtrip_witness :
    fix_patch_content
      ['-', '-', '-', 'a', '\n', '+', '+', '+', 'b', '\n', 'x', '\n',
        '@', '@', '\n', '+', 'z'] =
      joinLF (([['-', '-', '-', 'a'], ['+', '+', '+', 'b'], ['x']] ++
        ['@', '@'] :: [['+', 'z']]).filter isHeaderMarker ++
        ['@', '@'] :: [['+', 'z']]) ++ ['\n'] :=
  c6_roundtrip
    ['-', '-', '-', 'a', '\n', '+', '+', '+', 'b', '\n', 'x', '\n',
      '@', '@', '\n', '+', 'z']
    [['-', '-', '-', 'a'], ['+', '+', '+', 'b'], ['x']] [['+', 'z']] ['@', '@']
    (by decide) (by decide) (by decide) (by decide)

/-- Claim C10: the full pipeline maps the empty string to a single LF, and
its output is non-empty on every input. -/
theorem c10_empty_input :
    fix_patch_content [] = ['\n'] ∧ ∀ s : List Char, fix_patch_content s ≠ [] := by
  constructor
  · decide
  · intro s
    simp [fix_patch_content]

/-! The orchestrator `apply_patches`.  The external world is abstracted per
artifact: whether the read raises `UnicodeDecodeError`, whether writing the
scratch file raises after the file was created, and for each `git apply`
invocation whether it succeeds, returns non-zero, or raises.  The body of
the `for` loop is embedded as the event trace it performs plus the early
return it takes, following the source branch by branch. -/

/-- Outcome of reading one artifact with `encoding='utf-8-sig'`. -/
inductive ReadBeh : Type where
  | ok
  | decodeErr
deriving DecidableEq

/-- Outcome of writing the scratch `.tmp` file, after it has been created. -/
inductive WriteBeh : Type where
  | ok
  | exc
deriving DecidableEq

/-- Outcome of one external `git apply` invocation: zero exit, non-zero
exit, or a raised exception. -/
inductive RunBeh : Type where
  | ok
  | fail
  | exc
deriving DecidableEq

/-- Abstract behaviour of one `.patch` artifact of the sorted list. -/
structure Artifact : Type where
  readBeh : ReadBeh
  writeBeh : WriteBeh
  fixBeh : RunBeh
  ignoreBeh : RunBeh
deriving DecidableEq

/-- The two modes passed to the external apply mechanism:
`--whitespace=fix` and `--ignore-whitespace`. -/
inductive Mode : Type where
  | fix
  | ignore
deriving DecidableEq

/-- Observable actions of `apply_patches`, indexed by the artifact's
position in the sorted list. -/
inductive Event : Type where
  | readArt (i : Nat)
  | writeTemp (i : Nat)
  | runApply (i : Nat) (m : Mode)
  | printDiag (i : Nat)
  | deleteTemp (i : Nat)
deriving DecidableEq

/-- The position an event talks about. -/
def eventIdx : Event → Nat
  | Event.readArt i => i
  | Event.writeTemp i => i
  | Event.runApply i _ => i
  | Event.printDiag i => i
  | Event.deleteTemp i => i

/-- The event trace of one iteration of the `for` loop, branch by branch:
a decode error returns before the scratch file exists; an exception after
the scratch write reaches the generic handler, which unlinks the scratch
file; a primary success, a fallback success, and a double failure each
unlink the scratch file, the double failure after printing the diagnostic
stderr of the failing invocation. -/
def artifactEvents (i : Nat) (a : Artifact) : List Event :=
  match a.readBeh with
  | ReadBeh.decodeErr => [Event.readArt i]
  | ReadBeh.ok =>
    match a.writeBeh with
    | WriteBeh.exc => [Event.readArt i, Event.writeTemp i, Event.deleteTemp i]
    | WriteBeh.ok =>
      match a.fixBeh with
      | RunBeh.exc => [Event.readArt i, Event.writeTemp i, Event.deleteTemp i]
      | RunBeh.ok => [Event.readArt i, Event.writeTemp i,
          Event.runApply i Mode.fix, Event.deleteTemp i]
      | RunBeh.fail =>
        match a.ignoreBeh with
        | RunBeh.exc => [Event.readArt i, Event.writeTemp i,
            Event.runApply i Mode.fix, Event.deleteTemp i]
        | RunBeh.ok => [Event.readArt i, Event.writeTemp i,
            Event.runApply i Mode.fix, Event.runApply i Mode.ignore,
            Event.deleteTemp i]
        | RunBeh.fail => [Event.readArt i, Event.writeTemp i,
            Event.runApply i Mode.fix, Event.runApply i Mode.ignore,
            Event.printDiag i, Event.deleteTemp i]

/-- The early return taken by one iteration of the loop: `some 1` on decode
error, on an exception, or when both apply strategies fail; `none` when the
iteration falls through to the next artifact. -/
def artifactHalt (a : Artifact) : Option Nat :=
  match a.readBeh with
  | ReadBeh.decodeErr => some 1
  | ReadBeh.ok =>
    match a.writeBeh with
    | WriteBeh.exc => some 1
    | WriteBeh.ok =>
      match a.fixBeh with
      | RunBeh.exc => some 1
      | RunBeh.ok => none
      | RunBeh.fail =>
        match a.ignoreBeh with
        | RunBeh.exc => some 1
        | RunBeh.ok => none
        | RunBeh.fail => some 1

/-- The `for patch_file in patch_files` loop: process artifacts in order,
stopping at the first early return; falling off the loop returns 0. -/
def applyPatchesLoop : Nat → List Artifact → List Event × Nat
  | _, [] => ([], 0)
  | i, a :: rest =>
    match artifactHalt a with
    | some c => (artifactEvents i a, c)
    | none =>
      let p := applyPatchesLoop (i + 1) rest
      (artifactEvents i a ++ p.1, p.2)

/-- One run's environment: whether `./patches` exists, and the artifacts of
`sorted(patches_dir.glob('*.patch'))` in order. -/
structure Batch : Type where
  dirExists : Bool
  files : List Artifact
deriving DecidableEq

/-- The whole of `apply_patches`: a missing directory returns 1 before any
artifact is touched, otherwise the loop runs (an empty list returns 0). -/
def apply_patches (b : Batch) : List Event × Nat :=
  if b.dirExists then applyPatchesLoop 0 b.files else ([], 1)

theorem eventIdx_artifactEvents (i : Nat) (a : Artifact) :
    ∀ e ∈ artifactEvents i a, eventIdx e = i := by
  rcases a with ⟨rb, wb, fb, ib⟩
  cases rb <;> cases wb <;> cases fb <;> cases ib <;>
    simp [artifactEvents, eventIdx]

/-- The trace of a run of the loop over artifacts none of which returns
early. -/
def loopEventsOk : Nat → List Artifact → List Event
  | _, [] => []
  | i, a :: rest => artifactEvents i a ++ loopEventsOk (i + 1) rest

theorem loop_ok_append :
    ∀ (pre rest : List Artifact) (i : Nat),
      (∀ x ∈ pre, artifactHalt x = none) →
      applyPatchesLoop i (pre ++ rest) =
        (loopEventsOk i pre ++ (applyPatchesLoop (i + pre.length) rest).1,
          (applyPatchesLoop (i + pre.length) rest).2) := by
  intro pre
  induction pre with
  | nil => intro rest i _; simp [loopEventsOk]
  | cons a t ih =>
    intro rest i hpre
    have ha : artifactHalt a = none := hpre a (by simp)
    have ht : ∀ x ∈ t, artifactHalt x = none := fun x hx => hpre x (by simp [hx])
    have harith : i + (a :: t).length = (i + 1) + t.length := by
      simp
      omega
    rw [List.cons_append]
    simp only [applyPatchesLoop, ha, loopEventsOk, ih rest (i + 1) ht, harith,
      List.append_assoc]

theorem eventIdx_loopEventsOk :
    ∀ (pre : List Artifact) (i : Nat) (e : Event),
      e ∈ loopEventsOk i pre → eventIdx e < i + pre.length := by
  intro pre
  induction pre with
  | nil => intro i e he; simp [loopEventsOk] at he
  | cons a t ih =>
    intro i e he
    simp only [loopEventsOk, List.mem_append] at he
    rcases he with he | he
    · have := eventIdx_artifactEvents i a e he
      simp
      omega
    · have := ih (i + 1) e he
      simp
      omega

theorem artifactHalt_one (a : Artifact) (c : Nat) (h : artifactHalt a = some c) :
    c = 1 := by
  rcases a with ⟨rb, wb, fb, ib⟩
  cases rb <;> cases wb <;> cases fb <;> cases ib <;> simp_all [artifactHalt]

theorem loop_code_iff :
    ∀ (files : List Artifact) (i : Nat),
      (applyPatchesLoop i files).2 = 0 ↔ ∀ x ∈ files, artifactHalt x = none := by
  intro files
  induction files with
  | nil => intro i; simp [applyPatchesLoop]
  | cons a t ih =>
    intro i
    cases ha : artifactHalt a with
    | some c =>
      have hc := artifactHalt_one a c ha
      subst hc
      simp [applyPatchesLoop, ha]
    | none =>
      simp [applyPatchesLoop, ha, ih (i + 1)]

theorem artifact_write_delete (i : Nat) (a : Artifact)
    (h : Event.writeTemp i ∈ artifactEvents i a) :
    Event.deleteTemp i ∈ artifactEvents i a ∧
    (artifactEvents i a).getLast? = some (Event.deleteTemp i) := by
  rcases a with ⟨rb, wb, fb, ib⟩
  cases rb <;> cases wb <;> cases fb <;> cases ib <;>
    simp_all [artifactEvents]

theorem loop_write_delete :
    ∀ (files : List Artifact) (j i : Nat),
      Event.writeTemp i ∈ (applyPatchesLoop j files).1 →
      Event.deleteTemp i ∈ (applyPatchesLoop j files).1 := by
  intro files
  induction files with
  | nil => intro j i h; simp [applyPatchesLoop] at h
  | cons a t ih =>
    intro j i h
    cases ha : artifactHalt a with
    | some c =>
      simp only [applyPatchesLoop, ha] at h ⊢
      have hij : i = j := by
        have := eventIdx_artifactEvents j a _ h
        simpa [eventIdx] using this
      subst hij
      exact (artifact_write_delete i a h).1
    | none =>
      simp only [applyPatchesLoop, ha, List.mem_append] at h ⊢
      rcases h with h | h
      · have hij : i = j := by
          have := eventIdx_artifactEvents j a _ h
          simpa [eventIdx] using this
        subst hij
        exact Or.inl (artifact_write_delete i a h).1
      · exact Or.inr (ih (j + 1) i h)

/-- Claim C2: when the artifact at position `pre.length` fails the primary
and the fallback apply (every earlier artifact having fallen through), the
run prints the diagnostic output, deletes that artifact's scratch file as
its very last action, returns 1, and produces no event for any later
artifact. -/
theorem c2_fail_fast (b : Batch) (pre post : List Artifact) (a : Artifact)
    (hdir : b.dirExists = true)
    (hfiles : b.files = pre ++ a :: post)
    (hpre : ∀ x ∈ pre, artifactHalt x = none)
    (hread : a.readBeh = ReadBeh.ok)
    (hwrite : a.writeBeh = WriteBeh.ok)
    (hfix : a.fixBeh = RunBeh.fail)
    (hign : a.ignoreBeh = RunBeh.fail) :
    (apply_patches b).2 = 1 ∧
    Event.printDiag pre.length ∈ (apply_patches b).1 ∧
    (apply_patches b).1.getLast? = some (Event.deleteTemp pre.length) ∧
    ∀ e ∈ (apply_patches b).1, eventIdx e ≤ pre.length := by
  have hev : artifactEvents pre.length a =
      [Event.readArt pre.length, Event.writeTemp pre.length,
        Event.runApply pre.length Mode.fix, Event.runApply pre.length Mode.ignore,
        Event.printDiag pre.length, Event.deleteTemp pre.length] := by
    simp [artifactEvents, hread, hwrite, hfix, hign]
  have hha : artifactHalt a = some 1 := by
    simp [artifactHalt, hread, hwrite, hfix, hign]
  have happ : apply_patches b =
      (loopEventsOk 0 pre ++ artifactEvents pre.length a, 1) := by
    simp only [apply_patches, hdir, if_true, hfiles]
    rw [loop_ok_append pre (a :: post) 0 hpre]
    simp [applyPatchesLoop, hha]
  rw [happ]
  refine ⟨rfl, ?_, ?_, ?_⟩
  · rw [hev]
    simp
  · rw [List.getLast?_append_of_ne_nil _ (by rw [hev]; simp), hev]
    simp
  · intro e he
    rcases List.mem_append.mp he with h | h
    · have := eventIdx_loopEventsOk pre 0 e h
      omega
    · have := eventIdx_artifactEvents pre.length a e h
      omega

def okArt : Artifact := ⟨ReadBeh.ok, WriteBeh.ok, RunBeh.ok, RunBeh.ok⟩

def badArt : Artifact := ⟨ReadBeh.ok, WriteBeh.ok, RunBeh.fail, RunBeh.fail⟩

def fallbackArt : Artifact := ⟨ReadBeh.ok, WriteBeh.ok, RunBeh.fail, RunBeh.ok⟩

def c2batch : Batch := ⟨true, [okArt, badArt, okArt]⟩

theorem c2_fail_fast_witness :
    (apply_patches c2batch).2 = 1 ∧
    Event.printDiag 1 ∈ (apply_patches c2batch).1 ∧
    (apply_patches c2batch).1.getLast? = some (Event.deleteTemp 1) ∧
    ∀ e ∈ (apply_patches c2batch).1, eventIdx e ≤ 1 :=
  c2_fail_fast c2batch [okArt] [okArt] badArt rfl rfl (by decide) rfl rfl rfl rfl

/-- Claim C3: whenever a run writes the scratch file of the artifact at
position `i`, the run also deletes it, and within that artifact's own
processing window the deletion is the last action. -/
theorem c3_scratch_lifecycle (b : Batch) (i : Nat) (a : Artifact)
    (hw : Event.writeTemp i ∈ (apply_patches b).1)
    (ha : Event.writeTemp i ∈ artifactEvents i a) :
    Event.deleteTemp i ∈ (apply_patches b).1 ∧
    (artifactEvents i a).getLast? = some (Event.deleteTemp i) := by
  refine ⟨?_, (artifact_write_delete i a ha).2⟩
  by_cases hd : b.dirExists = true
  · simp only [apply_patches, hd, if_true] at hw ⊢
    exact loop_write_delete b.files 0 i hw
  · simp [apply_patches, hd] at hw

theorem c3_scratch_lifecycle_witness :
    Event.deleteTemp 0 ∈ (apply_patches ⟨true, [okArt]⟩).1 ∧
    (artifactEvents 0 okArt).getLast? = some (Event.deleteTemp 0) :=
  c3_scratch_lifecycle ⟨true, [okArt]⟩ 0 okArt (by decide) (by decide)

/-- Claim C4: an artifact whose primary apply returns non-zero and whose
fallback succeeds runs the fallback exactly once, after the primary and
against the same scratch file, does not return early, and a batch made of
such artifacts and successes still returns 0. -/
theorem c4_fallback_retry (b : Batch) (pre post : List Artifact) (a : Artifact)
    (i : Nat)
    (hread : a.readBeh = ReadBeh.ok)
    (hwrite : a.writeBeh = WriteBeh.ok)
    (hfix : a.fixBeh = RunBeh.fail)
    (hign : a.ignoreBeh = RunBeh.ok)
    (hdir : b.dirExists = true)
    (hfiles : b.files = pre ++ a :: post)
    (hpre : ∀ x ∈ pre, artifactHalt x = none)
    (hpost : ∀ x ∈ post, artifactHalt x = none) :
    artifactHalt a = none ∧
    artifactEvents i a = [Event.readArt i, Event.writeTemp i,
      Event.runApply i Mode.fix, Event.runApply i Mode.ignore,
      Event.deleteTemp i] ∧
    (apply_patches b).2 = 0 := by
  have hha : artifactHalt a = none := by
    simp [artifactHalt, hread, hwrite, hfix, hign]
  refine ⟨hha, by simp [artifactEvents, hread, hwrite, hfix, hign], ?_⟩
  have hall : ∀ x ∈ b.files, artifactHalt x = none := by
    rw [hfiles]
    intro x hx
    rcases List.mem_append.mp hx with h | h
    · exact hpre x h
    · rcases List.mem_cons.mp h with h | h
      · rw [h]
        exact hha
      · exact hpost x h
  simp only [apply_patches, hdir, if_true]
  exact (loop_code_iff b.files 0).mpr hall

theorem c4_fallback_retry_witness :
    artifactHalt fallbackArt = none ∧
    artifactEvents 0 fallbackArt = [Event.readArt 0, Event.writeTemp 0,
      Event.runApply 0 Mode.fix, Event.runApply 0 Mode.ignore,
      Event.deleteTemp 0] ∧
    (apply_patches ⟨true, [fallbackArt]⟩).2 = 0 :=
  c4_fallback_retry ⟨true, [fallbackArt]⟩ [] [] fallbackArt 0 rfl rfl rfl rfl
    rfl rfl (by decide) (by decide)

/-- A batch whose single artifact raises a decode error on read. -/
def c7batch : Batch :=
  ⟨true, [⟨ReadBeh.decodeErr, WriteBeh.ok, RunBeh.ok, RunBeh.ok⟩]⟩

/-- Claim C7 fails as stated: a batch whose directory exists and in which
no artifact fails both apply strategies still returns 1 when an artifact's
read raises a decode error, so failure is not equivalent to a missing
directory or a double apply failure. -/
theorem c7_counterexample :
    c7batch.dirExists = true ∧
    (∀ a ∈ c7batch.files, ¬(a.fixBeh = RunBeh.fail ∧ a.ignoreBeh = RunBeh.fail)) ∧
    (apply_patches c7batch).2 = 1 := by
  decide

/-- Claim C7 amended: the run returns 0 exactly when the directory exists
and no artifact returns early (a decode error, an exception, or a double
apply failure each return early); an existing empty directory returns 0
with no event at all, and a missing directory returns 1 with no event at
all, before any artifact is read or any apply invoked. -/
theorem c7_exit_codes (b : Batch) :
    ((apply_patches b).2 = 0 ↔
      (b.dirExists = true ∧ ∀ a ∈ b.files, artifactHalt a = none)) ∧
    apply_patches ⟨true, []⟩ = ([], 0) ∧
    apply_patches ⟨false, b.files⟩ = ([], 1) := by
  refine ⟨?_, rfl, rfl⟩
  cases hd : b.dirExists
  · simp [apply_patches, hd]
  · simp [apply_patches, hd, loop_code_iff b.files 0]
